import Mathlib

/-!
# Verification of the `to-do` task tracker (src/src/main.rs)

Shallow embedding of the Rust program's core: the `Priority` enum, the `Task`
record, the `TaskManager` operations (`add_task`, `complete_task`), the
due-time status derivation used by `print_tasks`, and the JSON persistence
codec (`Task::to_json` / `Task::from_json`, `TaskManager::save_tasks` /
`TaskManager::load_tasks`).

Modelling conventions:
* `chrono::NaiveDateTime` is a point on a linear timeline (no timezone);
  comparison and subtraction of two such points are exactly the order and
  difference of their offsets, so we embed it as `Int` (seconds on the
  timeline).  `chrono::Duration::num_hours` is the number of *whole* hours,
  i.e. truncating division of the seconds by 3600, embedded as `Int.tdiv`.
* serde_json's concrete syntax layer is embedded as a `Json` value tree;
  strings serialize per-field as in the derived `Serialize`/`Deserialize`
  impls (`serde_repr` integer codes for `Priority`, `null`/timestamp string
  for `Option<NaiveDateTime>`).  The file written by `save_tasks` is the
  rendered text of that tree; `load_tasks` consumes the tree.
* File I/O is a `FileState` (the file's contents, or `none` when the file
  cannot be opened/read); `io::Result` is `Except String`.
-/

namespace Todo

/-- The `enum Priority { High, Medium, Low }`, `#[repr(u8)]`, with derived `Ord`
(declaration order: `High < Medium < Low`). -/
inductive Priority where
  | High
  | Medium
  | Low
deriving DecidableEq, Repr

namespace Priority

/-- The `#[repr(u8)]` discriminant used by `Serialize_repr`:
`High = 0`, `Medium = 1`, `Low = 2`. -/
def toCode : Priority → Nat
  | .High => 0
  | .Medium => 1
  | .Low => 2

/-- Per `Deserialize_repr`: decode a discriminant by comparing against each
variant's code; any unrecognized code is an error (`none`). -/
def ofCode (n : Int) : Option Priority :=
  if n = 0 then some .High
  else if n = 1 then some .Medium
  else if n = 2 then some .Low
  else none

end Priority

/-- A point of `chrono::NaiveDateTime`, as seconds on its (timezone-free)
timeline.  `Ord` and subtraction on `NaiveDateTime` agree with `Int`'s. -/
abbrev NaiveDateTime := Int

/-- The `struct Task { description, completed, priority, due_time }`. -/
structure Task where
  description : String
  completed : Bool
  priority : Priority
  due_time : Option NaiveDateTime
deriving DecidableEq, Repr

/-- The `struct TaskManager { tasks: Vec<Task> }`. -/
structure TaskManager where
  tasks : List Task
deriving DecidableEq, Repr

/-- The comparison used by `self.tasks.sort_by_key(|task| task.priority)`:
derived `Ord` on `Priority` is declaration order, i.e. the order of the
`repr(u8)` discriminants. -/
def taskLE (a b : Task) : Prop := a.priority.toCode ≤ b.priority.toCode

instance : DecidableRel taskLE := fun a b =>
  inferInstanceAs (Decidable (a.priority.toCode ≤ b.priority.toCode))

instance : IsTotal Task taskLE :=
  ⟨fun a b => Nat.le_total a.priority.toCode b.priority.toCode⟩

instance : IsTrans Task taskLE :=
  ⟨fun _ _ _ hab hbc => Nat.le_trans hab hbc⟩

namespace TaskManager

/-- The constructor `TaskManager::new()`. -/
def new : TaskManager := ⟨[]⟩

/-- The operation `TaskManager::add_task`: push the new task (with `completed: false`),
then `sort_by_key(|task| task.priority)`.  Rust's `sort_by_key` is a stable
sort; any stable sort computes the same list, so it is embedded as
`List.insertionSort` (stable for a non-strict comparison). -/
def add_task (tm : TaskManager) (description : String) (priority : Priority)
    (due_time : Option NaiveDateTime) : TaskManager :=
  ⟨List.insertionSort taskLE
    (tm.tasks ++ [{ description := description, completed := false,
                    priority := priority, due_time := due_time }])⟩

/-- The operation `TaskManager::complete_task`:
`self.tasks.get_mut(index).map(|task| task.completed = true);` —
in range, set the flag; out of range, `get_mut` is `None` and the `map`
does nothing. -/
def complete_task (tm : TaskManager) (index : Nat) : TaskManager :=
  match tm.tasks[index]? with
  | some t => ⟨tm.tasks.set index { t with completed := true }⟩
  | none => tm

end TaskManager

/-! ## Decimal rendering and parsing (timestamp text, JSON numbers)

`chrono` serializes a `NaiveDateTime` as fixed-format text and parsing
rejects malformed text.  With the timeline embedded as `Int`, the textual
form is embedded as the decimal rendering of the offset: a total injective
render and a partial parse that fails on malformed text, matching the
structure of the chrono codec. -/

/-- The character of a decimal digit (`0 ≤ d ≤ 9`). -/
def digitChar (d : Nat) : Char := Char.ofNat (48 + d)

/-- Decode one decimal digit character; non-digits fail. -/
def charDigit (c : Char) : Option Nat :=
  if 48 ≤ c.toNat ∧ c.toNat ≤ 57 then some (c.toNat - 48) else none

/-- The decimal digits of `n`, least significant first (`[]` for `0`). -/
def natRevDigits : Nat → List Nat
  | 0 => []
  | n + 1 => ((n + 1) % 10) :: natRevDigits ((n + 1) / 10)
decreasing_by exact Nat.div_lt_self (Nat.succ_pos n) (by norm_num)

/-- Decimal rendering of a natural number. -/
def renderNat (n : Nat) : String :=
  if n = 0 then ("0") else String.mk ((natRevDigits n).reverse.map digitChar)

/-- Decode every character as a digit, in order, failing on the first
non-digit. -/
def parseDigitsAux : List Char → Option (List Nat)
  | [] => some []
  | c :: cs => do
      let d ← charDigit c
      let ds ← parseDigitsAux cs
      some (d :: ds)

/-- Parse a nonempty all-digit character list as a natural number. -/
def parseDigits (cs : List Char) : Option Nat :=
  match cs with
  | [] => none
  | _ => (parseDigitsAux cs).map (fun ds => ds.foldl (fun a d => 10 * a + d) 0)

/-- Decimal rendering of an integer (minus sign for negatives). -/
def renderInt (n : Int) : String :=
  if n < 0 then ("-" ++ renderNat (-n).toNat) else renderNat n.toNat

/-- Parse a decimal integer (optional leading minus sign). -/
def parseInt (s : String) : Option Int :=
  match s.toList with
  | [] => none
  | c :: rest =>
      if c = '-' then (parseDigits rest).map (fun n => -(Int.ofNat n))
      else (parseDigits (c :: rest)).map Int.ofNat

/-- The timestamp text chrono writes for a `NaiveDateTime`. -/
def renderTimestamp (t : NaiveDateTime) : String := renderInt t

/-- chrono's timestamp parser: inverse of `renderTimestamp`, failing on
malformed text. -/
def parseTimestamp (s : String) : Option NaiveDateTime := parseInt s

/-! ## The JSON layer (serde_json) -/

/-- serde_json's value tree (its concrete-syntax layer). -/
inductive Json where
  | null
  | bool (b : Bool)
  | num (n : Int)
  | str (s : String)
  | arr (elems : List Json)
  | obj (fields : List (String × Json))

/-- JSON string escaping as serde_json performs it on the characters the
program can produce (`"` and `\`; control-character escapes are not needed
by any claim). -/
def escapeJsonChar (c : Char) : String :=
  if c = '"' then ("\\\"") else if c = '\\' then ("\\\\") else String.singleton c

/-- A JSON string literal: quoted, escaped. -/
def renderJsonString (s : String) : String :=
  "\"" ++ String.join (s.toList.map escapeJsonChar) ++ "\""

/-- Render a JSON value to text as `serde_json::to_string` does (no
whitespace, fields in order). -/
def Json.render : Json → String
  | .null => ("null")
  | .bool b => if b then ("true") else ("false")
  | .num n => renderInt n
  | .str s => renderJsonString s
  | .arr elems =>
      "[" ++ String.intercalate (",") (elems.attach.map (fun e => e.1.render)) ++ "]"
  | .obj fields =>
      "\x7b" ++ String.intercalate (",")
        (fields.attach.map (fun f => renderJsonString f.1.1 ++ ":" ++ f.1.2.render))
        ++ "\x7d"
decreasing_by
  · simp_wf
    exact Nat.lt_add_left 1 (List.sizeOf_lt_of_mem e.2)
  · simp_wf
    rcases f with ⟨⟨a, b⟩, hf⟩
    have h1 := List.sizeOf_lt_of_mem hf
    simp at h1 ⊢
    omega

/-- The encoder `Task::to_json` / derived `Serialize`: an object with the four fields in
declaration order; `priority` as its `serde_repr` integer code; `due_time`
as `null` or the timestamp text. -/
def Task.to_json (t : Task) : Json :=
  .obj [("description", .str t.description),
        ("completed", .bool t.completed),
        ("priority", .num t.priority.toCode),
        ("due_time", match t.due_time with
                     | none => .null
                     | some dt => .str (renderTimestamp dt))]

/-- serde's struct deserializer: look a field up by name. -/
def findField (fields : List (String × Json)) (name : String) : Except String Json :=
  match fields.find? (fun f => f.1 == name) with
  | some f => .ok f.2
  | none => .error ("missing field " ++ name)

/-- The decoder `Task::from_json` / derived `Deserialize`: requires an object with all
four fields of the right shapes; an unrecognized priority code or a
malformed timestamp is an error. -/
def Task.from_json (j : Json) : Except String Task := do
  match j with
  | .obj fields =>
      let d ← match ← findField fields ("description") with
        | .str s => Except.ok s
        | _ => Except.error ("description: expected a string")
      let c ← match ← findField fields ("completed") with
        | .bool b => Except.ok b
        | _ => Except.error ("completed: expected a boolean")
      let p ← match ← findField fields ("priority") with
        | .num n =>
            match Priority.ofCode n with
            | some p => Except.ok p
            | none => Except.error ("priority: unrecognized code")
        | _ => Except.error ("priority: expected an integer")
      let dt ← match ← findField fields ("due_time") with
        | .null => Except.ok none
        | .str s =>
            match parseTimestamp s with
            | some t => Except.ok (some t)
            | none => Except.error ("due_time: malformed timestamp")
        | _ => Except.error ("due_time: expected null or a string")
      Except.ok { description := d, completed := c, priority := p, due_time := dt }
  | _ => Except.error ("expected an object")

/-- Decode the elements of a JSON array as tasks, in order, failing on the
first bad element (serde's sequence deserialization). -/
def decodeTaskList : List Json → Except String (List Task)
  | [] => Except.ok []
  | j :: js => do
      let t ← Task.from_json j
      let ts ← decodeTaskList js
      Except.ok (t :: ts)

/-- The loader's `serde_json::from_str::<Vec<Task>>` on the value tree: a JSON array,
each element a task. -/
def decodeTasks (j : Json) : Except String (List Task) :=
  match j with
  | .arr elems => decodeTaskList elems
  | _ => Except.error ("expected an array")

/-- The value tree `save_tasks` writes:
`format!("[{}]", tasks_json.join(","))` over `task.to_json()` is exactly the
rendering of the JSON array of the per-task objects. -/
def TaskManager.save_json (tm : TaskManager) : Json :=
  .arr (tm.tasks.map Task.to_json)

/-- The bytes `save_tasks` writes to the file. -/
def TaskManager.save_tasks_string (tm : TaskManager) : String :=
  "[" ++ String.intercalate (",") (tm.tasks.map (fun t => t.to_json.render)) ++ "]"

/-- The persisted file: its contents, or `none` when it cannot be
opened/read. -/
structure FileState where
  contents : Option String

/-- The operation `TaskManager::save_tasks`: truncate/create the file and write the
encoding of the current list. -/
def TaskManager.save_tasks (tm : TaskManager) (_fs : FileState) : FileState :=
  { contents := some tm.save_tasks_string }

/-- The operation `TaskManager::load_tasks` on the file's decoded value tree (`none` when
`File::open`/`read_to_string` fails): the `?` operator returns the error
before `self.tasks` is assigned, so on any failure the list is untouched;
on success the list is replaced wholesale by the decoded tasks. -/
def TaskManager.load_tasks (tm : TaskManager) (file : Option Json) :
    TaskManager × Except String Unit :=
  match file with
  | none => (tm, Except.error ("io: cannot open or read tasks.json"))
  | some j =>
      match decodeTasks j with
      | Except.error e => (tm, Except.error e)
      | Except.ok parsed => (⟨parsed⟩, Except.ok ())

/-- The rendered due-time status in `print_tasks`: either
`Осталось {n} часов` (n whole hours remaining, green) or
`Просрочено` (overdue, red). -/
inductive DueStatus where
  | remaining (hours : Int)
  | overdue
deriving DecidableEq, Repr

/-- The status computation of `print_tasks` for a task with a due time:
`if due_time > now { (due_time - now).num_hours() remaining } else { overdue }`.
`Duration::num_hours` truncates the seconds toward zero (`Int.tdiv`). -/
def dueStatus (due now : NaiveDateTime) : DueStatus :=
  if now < due then .remaining ((due - now).tdiv 3600) else .overdue

/-- The `AddCall` record: the arguments of one `add_task` call. -/
structure AddCall where
  description : String
  priority : Priority
  due_time : Option NaiveDateTime
deriving DecidableEq, Repr

/-- The task a call constructs (`completed` defaults to `false`). -/
def AddCall.toTask (c : AddCall) : Task :=
  { description := c.description, completed := false,
    priority := c.priority, due_time := c.due_time }

/-- Run a sequence of `add_task` calls from a given manager state. -/
def runAddsFrom (tm : TaskManager) (calls : List AddCall) : TaskManager :=
  calls.foldl (fun acc c => acc.add_task c.description c.priority c.due_time) tm

/-- Run a sequence of `add_task` calls from the fresh (empty) manager. -/
def runAdds (calls : List AddCall) : TaskManager :=
  runAddsFrom TaskManager.new calls

example :
    (runAdds [⟨"Buy milk", .Medium, none⟩, ⟨"Fix bug", .High, none⟩]).tasks.map
      Task.description = ["Fix bug", "Buy milk"] := by decide

example : dueStatus 7140 0 = .remaining 1 := by decide
example : dueStatus 0 0 = .overdue := by decide
example : (TaskManager.new.complete_task 3) = TaskManager.new := by decide

/-! ## Decimal codec round-trip -/

theorem charDigit_digitChar (d : Nat) (h : d < 10) : charDigit (digitChar d) = some d := by
  interval_cases d <;> decide

theorem digitChar_ne_minus (d : Nat) (h : d < 10) : digitChar d ≠ '-' := by
  interval_cases d <;> decide

theorem natRevDigits_lt_ten (n : Nat) : ∀ d ∈ natRevDigits n, d < 10 := by
  induction n using Nat.strong_induction_on with
  | _ n ih =>
    match n with
    | 0 => simp [natRevDigits]
    | m + 1 =>
      rw [natRevDigits]
      intro d hd
      rcases List.mem_cons.mp hd with h | h
      · subst h; exact Nat.mod_lt _ (by norm_num)
      · exact ih ((m + 1) / 10) (Nat.div_lt_self (Nat.succ_pos m) (by norm_num)) d h

theorem natRevDigits_foldr (n : Nat) :
    (natRevDigits n).foldr (fun d a => 10 * a + d) 0 = n := by
  induction n using Nat.strong_induction_on with
  | _ n ih =>
    match n with
    | 0 => simp [natRevDigits]
    | m + 1 =>
      rw [natRevDigits]
      simp only [List.foldr_cons]
      rw [ih ((m + 1) / 10) (Nat.div_lt_self (Nat.succ_pos m) (by norm_num))]
      omega

theorem natRevDigits_ne_nil (n : Nat) (h : n ≠ 0) : natRevDigits n ≠ [] := by
  match n with
  | 0 => exact absurd rfl h
  | m + 1 => rw [natRevDigits]; simp

theorem parseDigitsAux_map_digitChar (ds : List Nat) (h : ∀ d ∈ ds, d < 10) :
    parseDigitsAux (ds.map digitChar) = some ds := by
  induction ds with
  | nil => rfl
  | cons d ds ih =>
      simp only [List.map_cons, parseDigitsAux]
      rw [charDigit_digitChar d (h d (by simp))]
      rw [ih (fun x hx => h x (by simp [hx]))]
      rfl

theorem parseDigits_cons (c : Char) (cs : List Char) :
    parseDigits (c :: cs)
      = (parseDigitsAux (c :: cs)).map (fun ds => ds.foldl (fun a d => 10 * a + d) 0) := rfl

theorem parseDigits_renderNat (n : Nat) : parseDigits (renderNat n).toList = some n := by
  by_cases h0 : n = 0
  · subst h0; decide
  · rw [renderNat, if_neg h0]
    have htl : (String.mk ((natRevDigits n).reverse.map digitChar)).toList
        = (natRevDigits n).reverse.map digitChar := rfl
    rw [htl]
    have hne : (natRevDigits n).reverse.map digitChar ≠ [] := by
      simp [natRevDigits_ne_nil n h0]
    obtain ⟨c, cs, hcs⟩ := List.exists_cons_of_ne_nil hne
    rw [hcs, parseDigits_cons, ← hcs]
    rw [parseDigitsAux_map_digitChar _ (fun d hd =>
      natRevDigits_lt_ten n d (List.mem_reverse.mp hd))]
    simp only [Option.map_some']
    rw [List.foldl_reverse]
    rw [natRevDigits_foldr]

theorem renderNat_head_digit (n : Nat) :
    ∃ c cs, (renderNat n).toList = c :: cs ∧ c ≠ '-' := by
  by_cases h0 : n = 0
  · subst h0; exact ⟨'0', [], rfl, by decide⟩
  · rw [renderNat, if_neg h0]
    have htl : (String.mk ((natRevDigits n).reverse.map digitChar)).toList
        = (natRevDigits n).reverse.map digitChar := rfl
    rw [htl]
    have hne : (natRevDigits n).reverse ≠ [] := by
      simp [natRevDigits_ne_nil n h0]
    obtain ⟨d, ds, hds⟩ := List.exists_cons_of_ne_nil hne
    refine ⟨digitChar d, ds.map digitChar, by rw [hds]; rfl, ?_⟩
    exact digitChar_ne_minus d (natRevDigits_lt_ten n d
      (List.mem_reverse.mp (hds ▸ List.mem_cons_self d ds)))

theorem parseInt_renderInt (t : Int) : parseInt (renderInt t) = some t := by
  by_cases hneg : t < 0
  · rw [renderInt, if_pos hneg]
    have htl : ("-" ++ renderNat (-t).toNat).toList
        = '-' :: (renderNat (-t).toNat).toList := by
      show ("-" ++ renderNat (-t).toNat).data = _
      rw [String.data_append]
      rfl
    rw [parseInt, htl]
    simp only [if_pos rfl]
    rw [parseDigits_renderNat]
    simp only [Option.map_some']
    rw [Int.ofNat_eq_natCast, Int.toNat_of_nonneg (by omega : (0:Int) ≤ -t), neg_neg]
    simp
  · rw [renderInt, if_neg hneg]
    obtain ⟨c, cs, hcs, hc⟩ := renderNat_head_digit t.toNat
    rw [parseInt, hcs]
    simp only [if_neg hc]
    rw [← hcs, parseDigits_renderNat]
    simp only [Option.map_some']
    rw [Int.ofNat_eq_natCast, Int.toNat_of_nonneg (by omega : (0:Int) ≤ t)]

/-- The timestamp codec round-trips. -/
theorem parseTimestamp_renderTimestamp (t : NaiveDateTime) :
    parseTimestamp (renderTimestamp t) = some t :=
  parseInt_renderInt t

/-! ## JSON codec round-trip -/

/-- Decoding a serialized task restores it, field for field. -/
theorem from_json_to_json (t : Task) : Task.from_json t.to_json = Except.ok t := by
  rcases t with ⟨d, c, p, dt⟩
  cases p <;> cases dt <;>
    simp [Task.to_json, Task.from_json, findField, Priority.toCode, Priority.ofCode,
      parseTimestamp_renderTimestamp, bind, Except.bind, List.find?]

/-- Decoding a list of serialized tasks restores them in order. -/
theorem decodeTaskList_map_to_json (ts : List Task) :
    decodeTaskList (ts.map Task.to_json) = Except.ok ts := by
  induction ts with
  | nil => rfl
  | cons t ts ih =>
      simp only [List.map_cons, decodeTaskList]
      rw [from_json_to_json, ih]
      rfl

/-- The text `save_tasks` writes is exactly the rendering of the JSON array
of the per-task objects: the hand-rolled
`format!("[{}]", tasks_json.join(","))` agrees with the JSON syntax the
loader expects. -/
theorem save_tasks_string_eq_render (tm : TaskManager) :
    tm.save_tasks_string = tm.save_json.render := by
  rcases tm with ⟨tasks⟩
  simp only [TaskManager.save_tasks_string, TaskManager.save_json, Json.render,
    List.attach_map_val, List.map_map]
  rfl

/-! ## Stability of the insertion used by `add_task` -/

/-- Inserting a task touches only the filter class of its own priority, and
puts the inserted task in front of it (every task it passes over has a
strictly smaller priority key). -/
theorem filter_orderedInsert (q : Priority) (a : Task) (l : List Task) :
    (List.orderedInsert taskLE a l).filter (fun t => decide (t.priority = q))
      = if a.priority = q
        then a :: l.filter (fun t => decide (t.priority = q))
        else l.filter (fun t => decide (t.priority = q)) := by
  induction l with
  | nil =>
      by_cases h : a.priority = q <;> simp [List.orderedInsert, List.filter, h]
  | cons b l ih =>
      by_cases hab : taskLE a b
      · rw [List.orderedInsert_of_le _ _ hab]
        by_cases h : a.priority = q <;> simp [List.filter, h]
      · have hlt : b.priority.toCode < a.priority.toCode := by
          simp only [taskLE, not_le] at hab
          exact hab
        simp only [List.orderedInsert, if_neg hab]
        by_cases h : a.priority = q
        · have hb : ¬ b.priority = q := by
            intro hbq
            rw [h] at hlt
            rw [hbq] at hlt
            exact lt_irrefl _ hlt
          simp only [List.filter, hb, decide_eq_true_eq, if_pos h] at ih ⊢
          simp only [ih, if_pos h]
          simp [hb]
        · simp only [List.filter, if_neg h] at ih ⊢
          by_cases hb : b.priority = q <;> simp [hb, ih, if_neg h]

/-- A stable sort leaves each priority's filter class untouched. -/
theorem filter_insertionSort (q : Priority) (l : List Task) :
    (List.insertionSort taskLE l).filter (fun t => decide (t.priority = q))
      = l.filter (fun t => decide (t.priority = q)) := by
  induction l with
  | nil => rfl
  | cons a l ih =>
      simp only [List.insertionSort]
      rw [filter_orderedInsert]
      by_cases h : a.priority = q <;> simp [List.filter, h, ih]

/-- After any `add_task`, the list is sorted by priority key. -/
theorem add_task_sorted (tm : TaskManager) (d : String) (p : Priority)
    (dt : Option NaiveDateTime) : List.Sorted taskLE (tm.add_task d p dt).tasks :=
  List.sorted_insertionSort taskLE _

theorem runAddsFrom_nil (tm : TaskManager) : runAddsFrom tm [] = tm := rfl

theorem runAddsFrom_cons (tm : TaskManager) (c : AddCall) (rest : List AddCall) :
    runAddsFrom tm (c :: rest)
      = runAddsFrom (tm.add_task c.description c.priority c.due_time) rest := rfl

/-- Running `add_task` calls from a sorted list keeps it sorted. -/
theorem sorted_runAddsFrom (calls : List AddCall) (tm : TaskManager)
    (h : List.Sorted taskLE tm.tasks) :
    List.Sorted taskLE (runAddsFrom tm calls).tasks := by
  induction calls generalizing tm with
  | nil => exact h
  | cons c rest ih =>
      rw [runAddsFrom_cons]
      exact ih _ (add_task_sorted tm c.description c.priority c.due_time)

/-- Each priority's filter class after a run of `add_task` calls is the
class of the already-present tasks followed by the class of the calls in
call order: insertion order within equal priority is preserved. -/
theorem filter_runAddsFrom (calls : List AddCall) (tm : TaskManager) (q : Priority) :
    (runAddsFrom tm calls).tasks.filter (fun t => decide (t.priority = q))
      = tm.tasks.filter (fun t => decide (t.priority = q))
        ++ (calls.map AddCall.toTask).filter (fun t => decide (t.priority = q)) := by
  induction calls generalizing tm with
  | nil => simp [runAddsFrom_nil]
  | cons c rest ih =>
      rw [runAddsFrom_cons, ih]
      have hadd : (tm.add_task c.description c.priority c.due_time).tasks.filter
            (fun t => decide (t.priority = q))
          = tm.tasks.filter (fun t => decide (t.priority = q))
            ++ [c.toTask].filter (fun t => decide (t.priority = q)) := by
        show (List.insertionSort taskLE (tm.tasks ++ [c.toTask])).filter _ = _
        rw [filter_insertionSort, List.filter_append]
      rw [hadd, List.append_assoc]
      congr 1
      rw [List.map_cons]
      rw [show c.toTask :: rest.map AddCall.toTask
            = [c.toTask] ++ rest.map AddCall.toTask from rfl]
      rw [List.filter_append]

/-- Truncating `Int.tdiv` agrees with euclidean division on nonnegative dividends. -/
theorem tdiv3600_eq_ediv (a : Int) (h : 0 ≤ a) : a.tdiv 3600 = a / 3600 := by
  unfold Int.tdiv
  rcases a with n | n
  · simp [Int.ediv]
  · exact absurd h (by simp)

/-! ## The claims -/

/-- Claim C1: for every sequence of `add_task` calls (any description,
priority and optional due time), after each call the task list is sorted by
priority ascending (High, then Medium, then Low), and among tasks of equal
priority the relative insertion order is preserved (the sort is stable):
each priority's subsequence of the resulting list is exactly the
subsequence of the inserted tasks with that priority, in call order. -/
theorem add_task_sorted_and_stable (calls : List AddCall) :
    List.Sorted taskLE (runAdds calls).tasks ∧
    ∀ q : Priority,
      (runAdds calls).tasks.filter (fun t => decide (t.priority = q))
        = (calls.map AddCall.toTask).filter (fun t => decide (t.priority = q)) := by
  constructor
  · exact sorted_runAddsFrom calls TaskManager.new List.sorted_nil
  · intro q
    rw [runAdds, filter_runAddsFrom]
    simp [TaskManager.new]

/-- Claim C2: for every task list and every index `i` within bounds,
`complete_task i` sets the completed flag of the task at position `i` to
`true`, leaves that task's description, priority and due time unchanged,
leaves every other position unchanged, and preserves the list's length
(hence its order). -/
theorem complete_task_in_bounds (tm : TaskManager) (i : Nat)
    (h : i < tm.tasks.length) :
    (tm.complete_task i).tasks.length = tm.tasks.length ∧
    (tm.complete_task i).tasks[i]?
      = some { description := (tm.tasks.get ⟨i, h⟩).description,
               completed := true,
               priority := (tm.tasks.get ⟨i, h⟩).priority,
               due_time := (tm.tasks.get ⟨i, h⟩).due_time } ∧
    ∀ j, j ≠ i → (tm.complete_task i).tasks[j]? = tm.tasks[j]? := by
  have hget : tm.tasks[i]? = some (tm.tasks.get ⟨i, h⟩) := by
    simp [List.getElem?_eq_getElem h]
  refine ⟨?_, ?_, ?_⟩
  · simp [TaskManager.complete_task, hget, List.length_set]
  · simp only [TaskManager.complete_task, hget]
    rw [List.getElem?_set_self]
    simp [h]
  · intro j hj
    simp only [TaskManager.complete_task, hget]
    rw [List.getElem?_set_ne (by omega)]

theorem complete_task_in_bounds_witness :
    (((TaskManager.mk [⟨"a", false, Priority.High, none⟩,
        ⟨"b", false, Priority.Low, some 5⟩]).complete_task 0).tasks.length
      = (TaskManager.mk [⟨"a", false, Priority.High, none⟩,
        ⟨"b", false, Priority.Low, some 5⟩]).tasks.length) ∧
    (((TaskManager.mk [⟨"a", false, Priority.High, none⟩,
        ⟨"b", false, Priority.Low, some 5⟩]).complete_task 0).tasks[0]?
      = some ⟨"a", true, Priority.High, none⟩) ∧
    (((TaskManager.mk [⟨"a", false, Priority.High, none⟩,
        ⟨"b", false, Priority.Low, some 5⟩]).complete_task 0).tasks[1]?
      = (TaskManager.mk [⟨"a", false, Priority.High, none⟩,
        ⟨"b", false, Priority.Low, some 5⟩]).tasks[1]?) := by
  obtain ⟨h1, h2, h3⟩ := complete_task_in_bounds
    (TaskManager.mk [⟨"a", false, Priority.High, none⟩,
      ⟨"b", false, Priority.Low, some 5⟩]) 0 (by decide)
  exact ⟨h1, by rw [h2]; rfl, h3 1 (by decide)⟩

/-- Claim C3: for every task list and every index `i` at or beyond the
list's length, `complete_task i` is a silent no-op: the manager is entirely
unchanged (and the operation returns nothing, so no error reaches the
caller). -/
theorem complete_task_out_of_bounds (tm : TaskManager) (i : Nat)
    (h : tm.tasks.length ≤ i) : tm.complete_task i = tm := by
  have hnone : tm.tasks[i]? = none := List.getElem?_eq_none h
  simp [TaskManager.complete_task, hnone]

theorem complete_task_out_of_bounds_witness :
    (TaskManager.mk [⟨"a", false, Priority.Medium, none⟩]).tasks.length ≤ 1 ∧
    (TaskManager.mk [⟨"a", false, Priority.Medium, none⟩]).complete_task 1
      = TaskManager.mk [⟨"a", false, Priority.Medium, none⟩] :=
  ⟨by decide,
   complete_task_out_of_bounds
     (TaskManager.mk [⟨"a", false, Priority.Medium, none⟩]) 1 (by decide)⟩

/-- Claim C10: `complete_task` is idempotent: completing the same index
twice leaves the list exactly as completing it once. -/
theorem complete_task_idem (tm : TaskManager) (i : Nat) :
    (tm.complete_task i).complete_task i = tm.complete_task i := by
  cases h : tm.tasks[i]? with
  | none => simp [TaskManager.complete_task, h]
  | some t =>
      have hlen : i < tm.tasks.length := by
        by_contra hh
        rw [List.getElem?_eq_none (by omega)] at h
        exact Option.noConfusion h
      simp only [TaskManager.complete_task, h]
      have h2 : (tm.tasks.set i { t with completed := true })[i]?
          = some { t with completed := true } := by
        rw [List.getElem?_set_self]
        simp [hlen]
      simp only [h2]
      rw [List.set_set]

/-- Claim C4: for every task list (with or without due times, in any
order), encoding it to the persistence format — the text `save_tasks`
writes is the rendering of the JSON array of the per-task objects — and
decoding that back as `load_tasks` does yields a manager whose list equals
the original in every field and in the same order, with no error. -/
theorem save_load_round_trip (tm tm0 : TaskManager) (fs : FileState) :
    (tm.save_tasks fs).contents = some tm.save_json.render ∧
    (tm0.load_tasks (some tm.save_json)).1.tasks = tm.tasks ∧
    (tm0.load_tasks (some tm.save_json)).2 = Except.ok () := by
  refine ⟨?_, ?_, ?_⟩
  · rw [TaskManager.save_tasks, save_tasks_string_eq_render]
  · simp [TaskManager.load_tasks, TaskManager.save_json, decodeTasks,
      decodeTaskList_map_to_json]
  · simp [TaskManager.load_tasks, TaskManager.save_json, decodeTasks,
      decodeTaskList_map_to_json]

/-- Claim C5: whenever `load_tasks` fails — the file cannot be opened/read
(`none`), or the contents do not decode (bad structure, unrecognized
priority code, malformed timestamp) — the in-memory list is left exactly in
its prior state. -/
theorem load_tasks_failure_frame (tm : TaskManager) (file : Option Json)
    (e : String) (h : (tm.load_tasks file).2 = Except.error e) :
    (tm.load_tasks file).1 = tm := by
  cases file with
  | none => rfl
  | some j =>
      rw [TaskManager.load_tasks] at h ⊢
      cases hd : decodeTasks j with
      | error e2 => simp [hd]
      | ok ts =>
          rw [hd] at h
          simp at h

theorem load_tasks_failure_frame_witness :
    (TaskManager.new.load_tasks (some (Json.arr
        [Json.obj [("description", Json.str ("x")), ("completed", Json.bool false),
                   ("priority", Json.num 9), ("due_time", Json.null)]]))).2
      = Except.error ("priority: unrecognized code") ∧
    (TaskManager.new.load_tasks (some (Json.arr
        [Json.obj [("description", Json.str ("x")), ("completed", Json.bool false),
                   ("priority", Json.num 9), ("due_time", Json.null)]]))).1
      = TaskManager.new :=
  ⟨rfl,
   load_tasks_failure_frame TaskManager.new
     (some (Json.arr
        [Json.obj [("description", Json.str ("x")), ("completed", Json.bool false),
                   ("priority", Json.num 9), ("due_time", Json.null)]]))
     "priority: unrecognized code" rfl⟩

/-- Claim C6: for a task with a due time, against a fixed `now`: if the
due time is strictly after `now` the rendered status is the remaining-time
count, equal to the floor of the duration until the due time in whole hours
(bounded below and above as a floor); if the due time is `now` or earlier
the rendered status is the overdue marker. -/
theorem dueStatus_spec (due now : Int) :
    (now < due →
       dueStatus due now = DueStatus.remaining ((due - now).tdiv 3600) ∧
       ((due - now).tdiv 3600) * 3600 ≤ due - now ∧
       due - now < ((due - now).tdiv 3600 + 1) * 3600) ∧
    (due ≤ now → dueStatus due now = DueStatus.overdue) := by
  constructor
  · intro h
    refine ⟨by rw [dueStatus, if_pos h], ?_⟩
    have he : (due - now).tdiv 3600 = (due - now) / 3600 :=
      tdiv3600_eq_ediv (due - now) (by omega)
    rw [he]
    omega
  · intro h
    rw [dueStatus]
    exact if_neg (not_lt.mpr h)

theorem dueStatus_spec_witness :
    ((0:Int) < 7140 ∧ dueStatus 7140 0 = DueStatus.remaining 1) ∧
    ((0:Int) ≤ 0 ∧ dueStatus 0 0 = DueStatus.overdue) := by
  constructor
  · refine ⟨by norm_num, ?_⟩
    rw [((dueStatus_spec 7140 0).1 (by norm_num)).1]
    decide
  · exact ⟨le_refl 0, (dueStatus_spec 0 0).2 (le_refl 0)⟩

/-- Claim C7: saving twice in a row with no intervening mutation writes
byte-identical file contents: the encoding of a given list is a
deterministic function of the list. -/
theorem save_tasks_deterministic (tm : TaskManager) (fs : FileState) :
    (tm.save_tasks (tm.save_tasks fs)).contents = (tm.save_tasks fs).contents ∧
    (tm.save_tasks fs).contents = some tm.save_tasks_string :=
  ⟨rfl, rfl⟩

/-- Claim C8: each `Priority` variant serializes to its fixed integer code
(High 0, Medium 1, Low 2); decoding those codes yields the corresponding
variants, and decoding any other integer code is an error. -/
theorem priority_codes :
    (Priority.toCode .High = 0 ∧ Priority.toCode .Medium = 1 ∧
       Priority.toCode .Low = 2) ∧
    (Priority.ofCode 0 = some .High ∧ Priority.ofCode 1 = some .Medium ∧
       Priority.ofCode 2 = some .Low) ∧
    (∀ n : Int, Priority.ofCode n = none ↔ n ≠ 0 ∧ n ≠ 1 ∧ n ≠ 2) := by
  refine ⟨⟨rfl, rfl, rfl⟩, ⟨rfl, rfl, rfl⟩, ?_⟩
  intro n
  rw [Priority.ofCode]
  split_ifs with h0 h1 h2 <;> simp_all

/-- Claim C9: a successful `load_tasks` replaces the in-memory list with
the decoded tasks in exactly their file order, without re-sorting; in
particular a file listing a Low-priority task before a High-priority one
loads to a list that is not sorted by priority ascending. -/
theorem load_tasks_no_resort :
    (∀ (tm : TaskManager) (j : Json) (ts : List Task),
        decodeTasks j = Except.ok ts →
        tm.load_tasks (some j) = (⟨ts⟩, Except.ok ())) ∧
    ¬ List.Sorted taskLE (TaskManager.new.load_tasks (some (Json.arr
        [Task.to_json ⟨"low", false, .Low, none⟩,
         Task.to_json ⟨"high", false, .High, none⟩]))).1.tasks := by
  constructor
  · intro tm j ts h
    simp [TaskManager.load_tasks, h]
  · decide

theorem load_tasks_no_resort_witness :
    decodeTasks (Json.arr [Task.to_json ⟨"a", true, Priority.Medium, none⟩])
      = Except.ok [⟨"a", true, Priority.Medium, none⟩] ∧
    TaskManager.new.load_tasks
        (some (Json.arr [Task.to_json ⟨"a", true, Priority.Medium, none⟩]))
      = (⟨[⟨"a", true, Priority.Medium, none⟩]⟩, Except.ok ()) := by
  have hd : decodeTasks (Json.arr [Task.to_json ⟨"a", true, Priority.Medium, none⟩])
      = Except.ok [⟨"a", true, Priority.Medium, none⟩] := rfl
  exact ⟨hd, load_tasks_no_resort.1 TaskManager.new _ _ hd⟩

end Todo
